import Mathlib

/-
Verification of the LogLens++ streaming analytics core against its
specification.  The Python source is shallowly embedded:

* Python floats are modelled as real numbers (`ℝ`) where square roots are
  taken (anomaly detector), and as rationals (`ℚ`) where only field
  operations occur (metric aggregation, storage values).
* `datetime` instants are modelled as integers (microseconds since the
  epoch); `timedelta.total_seconds()` divides by 10^6 into `ℚ`.
* Raising Python callables are modelled in the `Except` monad; a
  caller-supplied function has type `α → Except PyErr β`.
* Strings are Lean `String`s; `str.upper`/`str.strip` are re-implemented
  transparently (`pyUpper`, `pyStrip`) so that they reduce in the kernel.
-/

namespace LogLens

/-- Error raised by embedded Python code: either a `ValueError` the library
itself raises, or an arbitrary exception escaping a caller-supplied
callable (identified by a code). -/
inductive PyErr : Type
  | valueErr (msg : String)
  | userErr (code : ℕ)
deriving DecidableEq

/-- Model of `str.upper` (`models.py` normalizes levels with it): map
`Char.toUpper` over the characters. -/
def pyUpper (s : String) : String :=
  ⟨s.data.map Char.toUpper⟩

/-- Model of `str.strip`: drop whitespace from both ends. -/
def pyStrip (s : String) : String :=
  ⟨((s.data.dropWhile (fun c => c.isWhitespace)).reverse.dropWhile
      (fun c => c.isWhitespace)).reverse⟩

/-- The event record of `loglens/models.py` (`LogEvent`), after its
`__post_init__` validation has succeeded.  `timestamp` is the instant in
microseconds; `metadata` is the string-keyed bag (values modelled as
strings). -/
structure LogEvent : Type where
  timestamp : ℤ
  level : String
  source : String
  message : String
  metadata : List (String × String)
deriving DecidableEq

/-! ## Anomaly detector (`loglens/analytics/anomaly_detector.py`) -/

/-- `AnomalyType` of `anomaly_detector.py` (the `NONE` member is never
produced by `add_value`). -/
inductive AnomalyType : Type
  | spike
  | drop
  | noneKind
deriving DecidableEq

/-- Shape of the explanation string built by
`AnomalyDetector._generate_explanation`.  The f-string templates are
abstracted to their six shapes; the ratio shapes carry the multiplier
that would be interpolated (`float('inf')` is modelled as `⊤ : EReal`). -/
inductive ExplForm : Type
  | spikeMult (multiplier : ℝ)
  | spikeStd
  | spikeTo
  | dropMult (multiplier : EReal)
  | dropStd
  | dropTo

/-- `AnomalyDetector._generate_explanation`: chooses the explanation shape
from the anomaly type, the baseline mean and the value.  In the source,
`multiplier = mean / value if value > 0 else float('inf')` on the DROP
side, then `multiplier >= 2.0` selects the ratio shape. -/
noncomputable def genExplanation (value mean _std _z : ℝ) (t : AnomalyType) :
    ExplForm :=
  if t = AnomalyType.spike then
    if 0 < mean then
      let multiplier := value / mean
      if 2 ≤ multiplier then ExplForm.spikeMult multiplier else ExplForm.spikeStd
    else ExplForm.spikeTo
  else
    if 0 < mean then
      let multiplier : EReal := if 0 < value then ((mean / value : ℝ) : EReal) else ⊤
      if (2 : EReal) ≤ multiplier then ExplForm.dropMult multiplier
      else ExplForm.dropStd
    else ExplForm.dropTo

/-- `AnomalyDetector._calculate_severity`. -/
noncomputable def calcSeverity (absZ : ℝ) : String :=
  if 4 ≤ absZ then "critical"
  else if 3 ≤ absZ then "high"
  else if 2.5 ≤ absZ then "medium"
  else "low"

/-- The `Anomaly` dataclass. -/
structure Anomaly : Type where
  metricName : String
  timestamp : ℤ
  value : ℝ
  baselineMean : ℝ
  baselineStd : ℝ
  zScore : ℝ
  anomalyType : AnomalyType
  explanation : ExplForm
  severity : String

/-- Append to a `deque(maxlen = N)`: keep the last `N` elements. -/
def pushWindow (N : ℕ) (values : List ℝ) (v : ℝ) : List ℝ :=
  let l := values ++ [v]
  if N < l.length then l.drop (l.length - N) else l

/-- `AnomalyDetector._calculate_mean`. -/
noncomputable def calcMean (values : List ℝ) : ℝ :=
  if values.isEmpty then 0 else values.sum / values.length

/-- `AnomalyDetector._calculate_std` (population standard deviation;
`0.0` when fewer than two samples are stored). -/
noncomputable def calcStd (values : List ℝ) (mean : ℝ) : ℝ :=
  if values.length < 2 then 0
  else Real.sqrt (((values.map (fun x => (x - mean) ^ 2)).sum) / values.length)

/-- Constructor parameters of `AnomalyDetector`. -/
structure DetectorConfig : Type where
  metricName : String
  windowSize : ℕ
  threshold : ℝ
  minSamples : ℕ

/-- `AnomalyDetector.add_value`: push the value into the rolling window
(the parallel timestamp deque does not influence detection and is not
carried), then detect.  Returns the new window and the optional anomaly. -/
noncomputable def addValue (cfg : DetectorConfig) (values : List ℝ) (v : ℝ)
    (ts : ℤ) : List ℝ × Option Anomaly :=
  let values' := pushWindow cfg.windowSize values v
  if values'.length < cfg.minSamples then (values', Option.none)
  else
    let mean := calcMean values'
    let std := calcStd values' mean
    if std < 1e-10 then (values', Option.none)
    else
      let z := (v - mean) / std
      if cfg.threshold ≤ |z| then
        let t := if 0 < z then AnomalyType.spike else AnomalyType.drop
        (values',
          Option.some
            { metricName := cfg.metricName
              timestamp := ts
              value := v
              baselineMean := mean
              baselineStd := std
              zScore := z
              anomalyType := t
              explanation := genExplanation v mean std z t
              severity := calcSeverity |z| })
      else (values', Option.none)

end LogLens

namespace LogLens

/-! ### Helper lemmas about `add_value` -/

/-- Unfolding lemma: when enough samples are stored, the deviation passes
the guard and the z-score reaches the threshold, `add_value` returns the
anomaly record it builds. -/
theorem addValue_some (cfg : DetectorConfig) (values : List ℝ) (v : ℝ) (ts : ℤ)
    (values' : List ℝ) (μ σ z : ℝ)
    (hv : values' = pushWindow cfg.windowSize values v)
    (hμ : μ = calcMean values') (hσ : σ = calcStd values' μ)
    (hz : z = (v - μ) / σ)
    (hm : cfg.minSamples ≤ values'.length)
    (hε : ¬ σ < 1e-10) (hτ : cfg.threshold ≤ |z|) :
    (addValue cfg values v ts).2 =
      Option.some
        { metricName := cfg.metricName, timestamp := ts, value := v,
          baselineMean := μ, baselineStd := σ, zScore := z,
          anomalyType := if 0 < z then AnomalyType.spike else AnomalyType.drop,
          explanation := genExplanation v μ σ z
            (if 0 < z then AnomalyType.spike else AnomalyType.drop),
          severity := calcSeverity |z| } := by
  subst hv hμ hσ hz
  unfold addValue
  rw [if_neg (Nat.not_lt.mpr hm), if_neg hε, if_pos hτ]

/-- Unfolding lemma: below `min_samples` no anomaly is returned. -/
theorem addValue_none_small (cfg : DetectorConfig) (values : List ℝ) (v : ℝ)
    (ts : ℤ)
    (hm : (pushWindow cfg.windowSize values v).length < cfg.minSamples) :
    (addValue cfg values v ts).2 = Option.none := by
  unfold addValue
  rw [if_pos hm]

/-- Unfolding lemma: when the deviation is below the `1e-10` guard no
anomaly is returned. -/
theorem addValue_none_guard (cfg : DetectorConfig) (values : List ℝ) (v : ℝ)
    (ts : ℤ)
    (hε : calcStd (pushWindow cfg.windowSize values v)
      (calcMean (pushWindow cfg.windowSize values v)) < 1e-10) :
    (addValue cfg values v ts).2 = Option.none := by
  unfold addValue
  by_cases hm : (pushWindow cfg.windowSize values v).length < cfg.minSamples
  · rw [if_pos hm]
  · rw [if_neg hm, if_pos hε]

/-- Unfolding lemma: when the z-score stays below the threshold no anomaly
is returned. -/
theorem addValue_none_below (cfg : DetectorConfig) (values : List ℝ) (v : ℝ)
    (ts : ℤ)
    (hm : cfg.minSamples ≤ (pushWindow cfg.windowSize values v).length)
    (hε : ¬ calcStd (pushWindow cfg.windowSize values v)
      (calcMean (pushWindow cfg.windowSize values v)) < 1e-10)
    (hτ : ¬ cfg.threshold ≤
      |(v - calcMean (pushWindow cfg.windowSize values v)) /
        calcStd (pushWindow cfg.windowSize values v)
          (calcMean (pushWindow cfg.windowSize values v))|) :
    (addValue cfg values v ts).2 = Option.none := by
  unfold addValue
  rw [if_neg (Nat.not_lt.mpr hm), if_neg hε, if_neg hτ]

/-- Auxiliary numeric fact. -/
theorem sqrt_four : Real.sqrt 4 = 2 := by
  rw [show (4:ℝ) = 2 ^ 2 by norm_num]
  exact Real.sqrt_sq (by norm_num)

/-- Auxiliary numeric fact: a square root is bounded by any number whose
square dominates the radicand. -/
theorem sqrt_le_of_sq (x y : ℝ) (hy : 0 ≤ y) (h : x ≤ y ^ 2) :
    Real.sqrt x ≤ y := by
  calc Real.sqrt x ≤ Real.sqrt (y ^ 2) := Real.sqrt_le_sqrt h
  _ = y := Real.sqrt_sq hy

/-! ### Claim C1 -/

/-- C1 counterexample: with threshold `τ = 0` the call
`add_value` on window `[0, 2]` with new value `1` yields `z = 0` exactly
(the deviation `√(2/3)` passes the `1e-10` guard), so an anomaly IS
returned, its kind is DROP, yet `z < 0` is false — refuting the claim's
"kind is DROP iff z < 0". -/
theorem c1_counterexample :
    ∃ a : Anomaly, (addValue ⟨"m", 5, 0, 3⟩ [0, 2] 1 0).2 = Option.some a ∧
      a.anomalyType = AnomalyType.drop ∧ a.zScore = 0 ∧ ¬ a.zScore < 0 := by
  have hpush : pushWindow 5 [0, 2] 1 = [0, 2, 1] := by norm_num [pushWindow]
  have hμ : (1 : ℝ) = calcMean [0, 2, 1] := by norm_num [calcMean]
  have hσ : Real.sqrt (2 / 3) = calcStd [0, 2, 1] 1 := by
    norm_num [calcStd]
  have hσε : ¬ Real.sqrt (2 / 3) < 1e-10 := by
    refine not_lt.mpr ((Real.le_sqrt (by norm_num) (by norm_num)).mpr (by norm_num))
  have key := addValue_some ⟨"m", 5, 0, 3⟩ [0, 2] 1 0 [0, 2, 1] 1
    (Real.sqrt (2 / 3)) 0 hpush.symm hμ hσ (by norm_num) (by norm_num)
    hσε (by norm_num)
  rw [if_neg (lt_irrefl (0 : ℝ))] at key
  exact ⟨_, key, rfl, rfl, lt_irrefl 0⟩

/-- C1 (amended): after `add_value` stores at least `min_samples` values,
with `μ` the mean and `σ` the population deviation of the stored values
(new value included) and `z = (value − μ)/σ`: when `σ ≥ 1e-10` an anomaly
is returned iff `|z| ≥ τ`, and a returned anomaly has kind SPIKE iff
`z > 0` and kind DROP iff `z ≤ 0` (the claim said `z < 0`; at `z = 0` the
source's `else` branch still yields DROP); when `|z| < τ` or `σ < 1e-10`
no anomaly is returned. -/
theorem c1_threshold_and_kind_law (cfg : DetectorConfig) (values : List ℝ)
    (v : ℝ) (ts : ℤ) (values' : List ℝ) (μ σ z : ℝ)
    (hv : values' = pushWindow cfg.windowSize values v)
    (hμ : μ = calcMean values') (hσ : σ = calcStd values' μ)
    (hz : z = (v - μ) / σ)
    (hm : cfg.minSamples ≤ values'.length) :
    ((1e-10 : ℝ) ≤ σ →
      (((addValue cfg values v ts).2).isSome ↔ cfg.threshold ≤ |z|) ∧
      (∀ a : Anomaly, (addValue cfg values v ts).2 = Option.some a →
        ((a.anomalyType = AnomalyType.spike ↔ 0 < z) ∧
         (a.anomalyType = AnomalyType.drop ↔ z ≤ 0)))) ∧
    ((|z| < cfg.threshold ∨ σ < 1e-10) →
      (addValue cfg values v ts).2 = Option.none) := by
  constructor
  · intro hσε
    have hε : ¬ σ < 1e-10 := not_lt.mpr hσε
    by_cases hτ : cfg.threshold ≤ |z|
    · rw [addValue_some cfg values v ts values' μ σ z hv hμ hσ hz hm
        (hσ ▸ hε) (hz ▸ hτ)]
      constructor
      · simp [hτ]
      · intro a ha
        injection ha with ha
        subst ha
        dsimp only
        by_cases hzpos : 0 < z
        · rw [if_pos hzpos]
          exact ⟨iff_of_true rfl hzpos,
            iff_of_false (by decide) (not_le.mpr hzpos)⟩
        · rw [if_neg hzpos]
          exact ⟨iff_of_false (by decide) hzpos,
            iff_of_true rfl (not_lt.mp hzpos)⟩
    · rw [addValue_none_below cfg values v ts (hv ▸ hm)
        (by rw [← hv, ← hμ, ← hσ]; exact hε)
        (by rw [← hv, ← hμ, ← hσ, ← hz]; exact hτ)]
      constructor
      · simp [hτ]
      · intro a ha
        exact absurd ha (by simp)
  · intro h
    rcases h with hτ | hσε
    · by_cases hmm : values'.length < cfg.minSamples
      · exact absurd hmm (Nat.not_lt.mpr hm)
      · by_cases hguard : σ < 1e-10
        · exact addValue_none_guard cfg values v ts (by rw [← hv, ← hμ]; exact hσ ▸ hguard)
        · exact addValue_none_below cfg values v ts (hv ▸ hm)
            (by rw [← hv, ← hμ, ← hσ]; exact hguard)
            (by rw [← hv, ← hμ, ← hσ, ← hz]; exact not_le.mpr hτ)
    · exact addValue_none_guard cfg values v ts (by rw [← hv, ← hμ]; exact hσ ▸ hσε)

/-- Witness for C1: a detector with threshold 1 and `min_samples` 3 on the
window `[0, 0]` plus new value `3` (so `μ = 1`, `σ = √2 ≥ 1e-10`,
`z = √2 ≥ 1`) does return an anomaly. -/
theorem c1_threshold_and_kind_law_witness :
    (3 : ℕ) ≤ (pushWindow 5 [0, 0] 3).length ∧
      (addValue ⟨"m", 5, 1, 3⟩ [0, 0] 3 0).2.isSome = true := by
  have hpush : pushWindow 5 [0, 0] 3 = [0, 0, 3] := by norm_num [pushWindow]
  have hμ : calcMean (pushWindow 5 [0, 0] 3) = 1 := by
    rw [hpush]; norm_num [calcMean]
  have hσ : calcStd (pushWindow 5 [0, 0] 3) (calcMean (pushWindow 5 [0, 0] 3)) =
      Real.sqrt 2 := by
    rw [hμ, hpush]; norm_num [calcStd]
  have hs2 : (1e-10 : ℝ) ≤ Real.sqrt 2 :=
    (Real.le_sqrt (by norm_num) (by norm_num)).mpr (by norm_num)
  have hs2pos : (0 : ℝ) < Real.sqrt 2 := lt_of_lt_of_le (by norm_num) hs2
  have hsle : Real.sqrt 2 ≤ 2 := sqrt_le_of_sq 2 2 (by norm_num) (by norm_num)
  have key := c1_threshold_and_kind_law ⟨"m", 5, 1, 3⟩ [0, 0] 3 0
    (pushWindow 5 [0, 0] 3)
    (calcMean (pushWindow 5 [0, 0] 3))
    (calcStd (pushWindow 5 [0, 0] 3) (calcMean (pushWindow 5 [0, 0] 3)))
    ((3 - calcMean (pushWindow 5 [0, 0] 3)) /
      calcStd (pushWindow 5 [0, 0] 3) (calcMean (pushWindow 5 [0, 0] 3)))
    rfl rfl rfl rfl (by rw [hpush]; norm_num)
  refine ⟨by rw [hpush]; norm_num, ?_⟩
  refine ((key.1 (by rw [hσ]; exact hs2)).1).mpr ?_
  dsimp only
  rw [hσ, hμ]
  have hz : |(3 - (1:ℝ)) / Real.sqrt 2| = 2 / Real.sqrt 2 := by
    rw [abs_of_pos (by positivity)]
    norm_num
  rw [hz]
  rw [le_div_iff₀ hs2pos]
  linarith

/-! ### Claim C10 -/

/-- C10 (confirmed): whatever the threshold and `min_samples`, a call to
`add_value` that leaves fewer than two samples stored returns no anomaly,
because `_calculate_std` returns `0.0` for fewer than two samples and the
`σ < 1e-10` guard then short-circuits. -/
theorem c10_fewer_than_two_samples_no_anomaly (cfg : DetectorConfig)
    (values : List ℝ) (v : ℝ) (ts : ℤ)
    (h2 : (pushWindow cfg.windowSize values v).length < 2) :
    (addValue cfg values v ts).2 = Option.none := by
  by_cases hm : (pushWindow cfg.windowSize values v).length < cfg.minSamples
  · exact addValue_none_small cfg values v ts hm
  · apply addValue_none_guard
    rw [calcStd, if_pos h2]
    norm_num

/-- Witness for C10: a detector with `min_samples = 1` that has stored a
single value returns no anomaly. -/
theorem c10_fewer_than_two_samples_no_anomaly_witness :
    (pushWindow 5 [] 7).length < 2 ∧
      (addValue ⟨"m", 5, 2, 1⟩ [] 7 0).2 = Option.none :=
  ⟨by norm_num [pushWindow],
    c10_fewer_than_two_samples_no_anomaly ⟨"m", 5, 2, 1⟩ [] 7 0
      (by norm_num [pushWindow])⟩

/-! ### Claim C5 -/

/-- C5 counterexample: feeding the detector (threshold 1, `min_samples` 3)
the window `[2, 4]` and then the value `0` produces a DROP anomaly with
positive baseline mean `μ = 2` and value `0`; its explanation is the
ratio shape with an infinite multiplier (`"dropped infx below baseline"`),
NOT the standard-deviations shape the claim requires for value `0`. -/
theorem c5_counterexample :
    ∃ a : Anomaly, (addValue ⟨"m", 5, 1, 3⟩ [2, 4] 0 0).2 = Option.some a ∧
      a.anomalyType = AnomalyType.drop ∧ 0 < a.baselineMean ∧ a.value = 0 ∧
      a.explanation = ExplForm.dropMult ⊤ ∧ a.explanation ≠ ExplForm.dropStd := by
  have hpush : pushWindow 5 [2, 4] 0 = [2, 4, 0] := by norm_num [pushWindow]
  have hμ : (2 : ℝ) = calcMean [2, 4, 0] := by norm_num [calcMean]
  have hσ : Real.sqrt (8 / 3) = calcStd [2, 4, 0] 2 := by
    norm_num [calcStd]
  have hσpos : (0 : ℝ) < Real.sqrt (8 / 3) := Real.sqrt_pos.mpr (by norm_num)
  have hσε : ¬ Real.sqrt (8 / 3) < 1e-10 :=
    not_lt.mpr ((Real.le_sqrt (by norm_num) (by norm_num)).mpr (by norm_num))
  have hzneg : -(2 / Real.sqrt (8 / 3)) < 0 := neg_neg_iff_pos.mpr (by positivity)
  have hτ : (1 : ℝ) ≤ |(-(2 / Real.sqrt (8 / 3)))| := by
    rw [abs_of_neg hzneg, neg_neg, le_div_iff₀ hσpos, one_mul]
    exact sqrt_le_of_sq (8 / 3) 2 (by norm_num) (by norm_num)
  have key := addValue_some ⟨"m", 5, 1, 3⟩ [2, 4] 0 0 [2, 4, 0] 2
    (Real.sqrt (8 / 3)) (-(2 / Real.sqrt (8 / 3))) hpush.symm hμ hσ
    (by rw [zero_sub, neg_div]) (by norm_num) hσε (by exact_mod_cast hτ)
  rw [if_neg (not_lt.mpr (le_of_lt hzneg))] at key
  refine ⟨_, key, rfl, by norm_num, rfl, ?_, ?_⟩
  · show genExplanation 0 2 (Real.sqrt (8 / 3)) (-(2 / Real.sqrt (8 / 3)))
      AnomalyType.drop = ExplForm.dropMult ⊤
    unfold genExplanation
    rw [if_neg (by decide : ¬ AnomalyType.drop = AnomalyType.spike),
      if_pos (by norm_num : (0:ℝ) < 2)]
    dsimp only
    rw [if_neg (lt_irrefl (0 : ℝ)), if_pos (le_top : (2 : EReal) ≤ ⊤)]
  · show genExplanation 0 2 (Real.sqrt (8 / 3)) (-(2 / Real.sqrt (8 / 3)))
      AnomalyType.drop ≠ ExplForm.dropStd
    unfold genExplanation
    rw [if_neg (by decide : ¬ AnomalyType.drop = AnomalyType.spike),
      if_pos (by norm_num : (0:ℝ) < 2)]
    dsimp only
    rw [if_neg (lt_irrefl (0 : ℝ)), if_pos (le_top : (2 : EReal) ≤ ⊤)]
    simp

/-- C5 (amended): for a DROP anomaly with positive baseline mean, the
explanation is the standard-deviations shape iff the value is positive and
`μ/value < 2`; otherwise — `μ/value ≥ 2`, or value ≤ 0 where the source
substitutes an infinite multiplier (in particular value = 0) — it is the
ratio shape. -/
theorem c5_drop_explanation_form (value mean std z : ℝ) (hm : 0 < mean) :
    (genExplanation value mean std z AnomalyType.drop = ExplForm.dropStd ↔
      0 < value ∧ mean / value < 2) ∧
    (¬ (0 < value ∧ mean / value < 2) →
      ∃ mult, genExplanation value mean std z AnomalyType.drop =
        ExplForm.dropMult mult) := by
  unfold genExplanation
  rw [if_neg (by decide : ¬ AnomalyType.drop = AnomalyType.spike), if_pos hm]
  dsimp only
  by_cases hv : 0 < value
  · rw [if_pos hv]
    have hcast : ((2 : ℝ) : EReal) = (2 : EReal) := by norm_cast
    by_cases h2 : (2 : EReal) ≤ ((mean / value : ℝ) : EReal)
    · rw [if_pos h2]
      have h2' : (2 : ℝ) ≤ mean / value := by
        rw [← hcast] at h2
        exact_mod_cast h2
      constructor
      · constructor
        · intro h
          exact absurd h (by simp)
        · intro h
          exact absurd h2' (not_le.mpr h.2)
      · intro h
        exact ⟨_, rfl⟩
    · rw [if_neg h2]
      have h2' : mean / value < 2 := by
        rw [← hcast] at h2
        exact lt_of_not_le (fun hle => h2 (by exact_mod_cast hle))
      constructor
      · exact iff_of_true rfl ⟨hv, h2'⟩
      · intro h
        exact absurd ⟨hv, h2'⟩ h
  · rw [if_neg hv, if_pos (le_top : (2 : EReal) ≤ ⊤)]
    constructor
    · constructor
      · intro h
        exact absurd h (by simp)
      · intro h
        exact absurd h.1 hv
    · intro _
      exact ⟨_, rfl⟩

/-- Witness for C5: at value 0 and mean 1 the DROP explanation is a ratio
shape. -/
theorem c5_drop_explanation_form_witness :
    (0 : ℝ) < 1 ∧
      ∃ mult, genExplanation 0 1 1 0 AnomalyType.drop = ExplForm.dropMult mult :=
  ⟨by norm_num, (c5_drop_explanation_form 0 1 1 0 (by norm_num)).2 (by norm_num)⟩

end LogLens

namespace LogLens

/-! ## Declarative metrics (`loglens/analytics/metrics.py`) -/

/-- `AggregationType` enum of `metrics.py`. -/
inductive AggregationType : Type
  | count
  | rate
  | average
  | sum
  | min
  | max
  | percentile
  | uniqueCount
deriving DecidableEq

/-- The `aggregation` field of a `Metric` after `__post_init__`: a builtin
`AggregationType` member or a caller-provided callable (which may raise). -/
inductive Aggregation : Type
  | builtin (t : AggregationType)
  | custom (f : List LogEvent → Except PyErr (Option ℚ))

/-- The `Metric` dataclass after `__post_init__` normalization.  The window
is a `timedelta` in microseconds (note the source accepts any `timedelta`
object without a sign check).  Caller-supplied callables may raise, hence
the `Except` codomains. -/
structure Metric : Type where
  name : String
  filter : LogEvent → Except PyErr Bool
  aggregation : Aggregation
  window : ℤ
  groupBy : Option (LogEvent → Except PyErr String) := Option.none
  valueExtractor : Option (LogEvent → Except PyErr ℚ) := Option.none
  percentile : Option ℚ := Option.none

/-- Model of `timedelta.total_seconds()`: microseconds over 10^6. -/
def totalSeconds (d : ℤ) : ℚ := (d : ℚ) / 1000000

/-- Evaluate a possibly-raising callable over each element left to right
(Python generator order; the first exception propagates). -/
def mapE {α β : Type} (f : α → Except PyErr β) : List α → Except PyErr (List β)
  | [] => Except.ok []
  | a :: rest =>
    match f a with
    | Except.error err => Except.error err
    | Except.ok b =>
      match mapE f rest with
      | Except.error err => Except.error err
      | Except.ok bs => Except.ok (b :: bs)

/-- Possibly-raising filter (Python list comprehension with an `if`
clause), left to right. -/
def filterE {α : Type} (p : α → Except PyErr Bool) :
    List α → Except PyErr (List α)
  | [] => Except.ok []
  | a :: rest =>
    match p a with
    | Except.error err => Except.error err
    | Except.ok b =>
      match filterE p rest with
      | Except.error err => Except.error err
      | Except.ok l => Except.ok (if b then a :: l else l)

/-- Python `min` over a number list (the source guards emptiness itself). -/
def listMin : List ℚ → Option ℚ
  | [] => Option.none
  | a :: rest => Option.some (rest.foldl Min.min a)

/-- Python `max` over a number list. -/
def listMax : List ℚ → Option ℚ
  | [] => Option.none
  | a :: rest => Option.some (rest.foldl Max.max a)

/-- Python `int()` applied to a rational: truncation toward zero. -/
def truncQ (q : ℚ) : ℤ := if 0 ≤ q then ⌊q⌋ else ⌈q⌉

/-- Python list indexing `l[i]`: negative indices count from the end,
out-of-range raises `IndexError`. -/
def pyIndex (l : List ℚ) (i : ℤ) : Except PyErr ℚ :=
  let j := if i < 0 then i + l.length else i
  if 0 ≤ j ∧ j < l.length then Except.ok (l.getD j.toNat 0)
  else Except.error (PyErr.valueErr "IndexError")

/-- Shared shape of the value-requiring branches of `_apply_aggregation`:
raise `ValueError` when the metric has no `value_extractor`, otherwise run
the branch body on the extractor. -/
def requireExtractor (m : Metric)
    (k : (LogEvent → Except PyErr ℚ) → Except PyErr (Option ℚ)) :
    Except PyErr (Option ℚ) :=
  match m.valueExtractor with
  | Option.none => Except.error (PyErr.valueErr "value_extractor required")
  | Option.some f => k f

/-- `MetricProcessor._apply_aggregation`. -/
def applyAggregation (m : Metric) (events : List LogEvent) :
    Except PyErr (Option ℚ) :=
  match events with
  | [] =>
    Except.ok
      (match m.aggregation with
       | Aggregation.builtin AggregationType.count => Option.some 0
       | _ => Option.none)
  | e0 :: rest =>
    match m.aggregation with
    | Aggregation.custom f => f (e0 :: rest)
    | Aggregation.builtin AggregationType.count =>
        Except.ok (Option.some ((e0 :: rest).length : ℚ))
    | Aggregation.builtin AggregationType.rate =>
        let timeSpan := totalSeconds ((rest.getLastD e0).timestamp - e0.timestamp)
        if timeSpan = 0 then Except.ok (Option.some ((e0 :: rest).length : ℚ))
        else if 0 < timeSpan then
          Except.ok (Option.some (((e0 :: rest).length : ℚ) / timeSpan))
        else Except.ok (Option.some 0)
    | Aggregation.builtin AggregationType.average =>
        requireExtractor m fun f =>
          match mapE f (e0 :: rest) with
          | Except.error err => Except.error err
          | Except.ok values =>
              Except.ok (Option.some
                (if values.isEmpty then 0 else values.sum / (values.length : ℚ)))
    | Aggregation.builtin AggregationType.sum =>
        requireExtractor m fun f =>
          match mapE f (e0 :: rest) with
          | Except.error err => Except.error err
          | Except.ok values => Except.ok (Option.some values.sum)
    | Aggregation.builtin AggregationType.min =>
        requireExtractor m fun f =>
          match mapE f (e0 :: rest) with
          | Except.error err => Except.error err
          | Except.ok values => Except.ok (listMin values)
    | Aggregation.builtin AggregationType.max =>
        requireExtractor m fun f =>
          match mapE f (e0 :: rest) with
          | Except.error err => Except.error err
          | Except.ok values => Except.ok (listMax values)
    | Aggregation.builtin AggregationType.percentile =>
        requireExtractor m fun f =>
          match mapE f (e0 :: rest) with
          | Except.error err => Except.error err
          | Except.ok values =>
            let sortedVals := values.mergeSort (fun a b => decide (a ≤ b))
            if sortedVals.isEmpty then Except.ok Option.none
            else
              match m.percentile with
              | Option.none => Except.error (PyErr.valueErr "percentile is None")
              | Option.some p =>
                match pyIndex sortedVals
                    (truncQ ((p / 100) * ((sortedVals.length : ℚ) - 1))) with
                | Except.error err => Except.error err
                | Except.ok v => Except.ok (Option.some v)
    | Aggregation.builtin AggregationType.uniqueCount =>
        requireExtractor m fun f =>
          match mapE f (e0 :: rest) with
          | Except.error err => Except.error err
          | Except.ok values => Except.ok (Option.some (values.dedup.length : ℚ))

/-- Append an event to its group, preserving key insertion order as Python
dict iteration does. -/
def insertGroup (key : String) (e : LogEvent) :
    List (String × List LogEvent) → List (String × List LogEvent)
  | [] => [(key, [e])]
  | (k, es) :: rest =>
      if k = key then (k, es ++ [e]) :: rest
      else (k, es) :: insertGroup key e rest

/-- Build the `grouped_events` dict of `_compute_metric`, calling the
caller-supplied `group_by` on each event in order. -/
def groupEvents (g : LogEvent → Except PyErr String) :
    List LogEvent → List (String × List LogEvent) →
    Except PyErr (List (String × List LogEvent))
  | [], acc => Except.ok acc
  | e :: es, acc =>
    match g e with
    | Except.error err => Except.error err
    | Except.ok k => groupEvents g es (insertGroup k e acc)

/-- The `MetricResult` dataclass (grouped map kept as an association list
in key insertion order). -/
structure MetricResult : Type where
  metricName : String
  value : Option ℚ
  windowStart : ℤ
  windowEnd : ℤ
  grouped : Option (List (String × Option ℚ)) := Option.none
deriving DecidableEq

/-- Aggregation loop of `_compute_metric` over the groups, in key
insertion order; the first exception propagates. -/
def aggGroups (m : Metric) :
    List (String × List LogEvent) → Except PyErr (List (String × Option ℚ))
  | [] => Except.ok []
  | (k, es) :: rest =>
    match applyAggregation m es with
    | Except.error err => Except.error err
    | Except.ok v =>
      match aggGroups m rest with
      | Except.error err => Except.error err
      | Except.ok l => Except.ok ((k, v) :: l)

/-- `MetricProcessor._compute_metric`. -/
def computeMetric (m : Metric) (events : List LogEvent) (ws we : ℤ) :
    Except PyErr MetricResult :=
  match filterE m.filter events with
  | Except.error err => Except.error err
  | Except.ok filtered =>
    match m.groupBy with
    | Option.some g =>
      match groupEvents g filtered [] with
      | Except.error err => Except.error err
      | Except.ok groups =>
        match aggGroups m groups with
        | Except.error err => Except.error err
        | Except.ok groupedValues =>
            Except.ok { metricName := m.name, value := Option.none,
                        windowStart := ws, windowEnd := we,
                        grouped := Option.some groupedValues }
    | Option.none =>
      match applyAggregation m filtered with
      | Except.error err => Except.error err
      | Except.ok v =>
          Except.ok { metricName := m.name, value := v,
                      windowStart := ws, windowEnd := we,
                      grouped := Option.none }

/-- The per-metric event buffers (the `metric_windows` defaultdict). -/
def Buffers : Type := String → List LogEvent

/-- Point update of the buffers map. -/
def setBuf (bufs : Buffers) (nm : String) (l : List LogEvent) : Buffers :=
  fun n => if n = nm then l else bufs n

/-- Window update performed by `add_event` for one matching metric: append
the event, then pop expired entries from the head while
`timestamp < now − window` (with `now` the new event's timestamp). -/
def updateBuffer (window : ℤ) (buf : List LogEvent) (e : LogEvent) :
    List LogEvent :=
  (buf ++ [e]).dropWhile (fun x => decide (x.timestamp < e.timestamp - window))

/-- Loop body of `MetricProcessor.add_event` over the metric list.  When a
callable raises, the exception propagates and the buffer mutations already
performed are kept (Python mutates `metric_windows` in place). -/
def addEventGo (e : LogEvent) :
    List Metric → Buffers → List (String × MetricResult) →
    Buffers × Except PyErr (List (String × MetricResult))
  | [], bufs, acc => (bufs, Except.ok acc)
  | m :: ms, bufs, acc =>
    match m.filter e with
    | Except.error err => (bufs, Except.error err)
    | Except.ok false => addEventGo e ms bufs acc
    | Except.ok true =>
      let wevents := updateBuffer m.window (bufs m.name) e
      let bufs' := setBuf bufs m.name wevents
      match computeMetric m wevents (e.timestamp - m.window) e.timestamp with
      | Except.error err => (bufs', Except.error err)
      | Except.ok r => addEventGo e ms bufs' (acc ++ [(m.name, r)])

/-- `MetricProcessor.add_event`: returns the buffers after the call and
either the updated-metrics association list or the propagated exception. -/
def addEvent (ms : List Metric) (bufs : Buffers) (e : LogEvent) :
    Buffers × Except PyErr (List (String × MetricResult)) :=
  addEventGo e ms bufs []

/-- Buffer evolution over a submitted event sequence: each `add_event`
call sees the buffers produced by the previous one. -/
def runEvents (ms : List Metric) : List LogEvent → Buffers → Buffers
  | [], bufs => bufs
  | e :: es, bufs => runEvents ms es (addEvent ms bufs e).1

end LogLens

namespace LogLens

/-! ### Helper lemmas for the metric processor -/

/-- Progress of `mapE` when the callable never raises on the inputs. -/
theorem mapE_ok {α β : Type} (f : α → Except PyErr β) (l : List α)
    (h : ∀ a ∈ l, ∃ b, f a = Except.ok b) :
    ∃ bs, mapE f l = Except.ok bs ∧ bs.length = l.length := by
  induction l with
  | nil => exact ⟨[], rfl, rfl⟩
  | cons a rest ih =>
    obtain ⟨b, hb⟩ := h a (List.mem_cons_self a rest)
    obtain ⟨bs, hbs, hlen⟩ := ih (fun x hx => h x (List.mem_cons_of_mem a hx))
    refine ⟨b :: bs, ?_, by simp [hlen]⟩
    unfold mapE
    rw [hb, hbs]

/-- Progress of `filterE` when the predicate never raises on the inputs. -/
theorem filterE_ok {α : Type} (p : α → Except PyErr Bool) (l : List α)
    (h : ∀ a ∈ l, ∃ b, p a = Except.ok b) :
    ∃ l', filterE p l = Except.ok l' := by
  induction l with
  | nil => exact ⟨[], rfl⟩
  | cons a rest ih =>
    obtain ⟨b, hb⟩ := h a (List.mem_cons_self a rest)
    obtain ⟨l', hl'⟩ := ih (fun x hx => h x (List.mem_cons_of_mem a hx))
    refine ⟨if b then a :: l' else l', ?_⟩
    unfold filterE
    rw [hb, hl']

/-- On a total predicate, `filterE` is `List.filter`. -/
theorem filterE_total {α : Type} (p : α → Bool) (l : List α) :
    filterE (fun a => Except.ok (p a)) l = Except.ok (l.filter p) := by
  induction l with
  | nil => rfl
  | cons a rest ih =>
    unfold filterE
    rw [ih]
    by_cases hp : p a
    · rw [List.filter_cons_of_pos hp]
      simp [hp]
    · rw [List.filter_cons_of_neg hp]
      simp [hp]

/-- Progress of `groupEvents` when the key function never raises. -/
theorem groupEvents_ok (g : LogEvent → Except PyErr String)
    (hg : ∀ e, ∃ s, g e = Except.ok s) (l : List LogEvent) :
    ∀ acc, ∃ out, groupEvents g l acc = Except.ok out := by
  induction l with
  | nil => exact fun acc => ⟨acc, rfl⟩
  | cons e es ih =>
    intro acc
    obtain ⟨k, hk⟩ := hg e
    obtain ⟨out, hout⟩ := ih (insertGroup k e acc)
    refine ⟨out, ?_⟩
    unfold groupEvents
    rw [hk]
    exact hout

/-- On nonnegative arguments, Python `int()` truncation is the floor. -/
theorem truncQ_eq_floor (q : ℚ) (h : 0 ≤ q) : truncQ q = ⌊q⌋ :=
  if_pos h

/-- Bounds of the nearest-rank percentile index for `0 ≤ p ≤ 100` and a
list of `n ≥ 1` values:
`0 ≤ ⌊p/100 · (n−1)⌋ < n`. -/
theorem percentile_index_bounds (n : ℕ) (p : ℚ) (hp0 : 0 ≤ p) (hp1 : p ≤ 100)
    (hn : 1 ≤ n) :
    0 ≤ ⌊(p / 100) * ((n : ℚ) - 1)⌋ ∧ ⌊(p / 100) * ((n : ℚ) - 1)⌋ < (n : ℤ) := by
  have hn1 : (0 : ℚ) ≤ (n : ℚ) - 1 := by
    have : (1 : ℚ) ≤ (n : ℚ) := by exact_mod_cast hn
    linarith
  have hx0 : (0 : ℚ) ≤ (p / 100) * ((n : ℚ) - 1) :=
    mul_nonneg (by positivity) hn1
  have hx1 : (p / 100) * ((n : ℚ) - 1) ≤ (n : ℚ) - 1 :=
    mul_le_of_le_one_left hn1 (by linarith [div_le_one_of_le₀ hp1 (by norm_num : (0:ℚ) ≤ 100)])
  constructor
  · exact Int.floor_nonneg.mpr hx0
  · have h1 : ⌊(p / 100) * ((n : ℚ) - 1)⌋ ≤ ⌊(n : ℚ) - 1⌋ := Int.floor_le_floor hx1
    have h3 : ⌊(n : ℚ) - 1⌋ = (n : ℤ) - 1 := by
      rw [show ((n : ℚ) - 1) = (((n : ℤ) - 1 : ℤ) : ℚ) by push_cast; ring,
        Int.floor_intCast]
    rw [h3] at h1
    omega

/-- Evaluation of Python list indexing at an in-range nonnegative index. -/
theorem pyIndex_ok (l : List ℚ) (i : ℤ) (h0 : 0 ≤ i) (hlt : i < l.length) :
    ∃ h : i.toNat < l.length,
      pyIndex l i = Except.ok (l.get ⟨i.toNat, h⟩) := by
  have hlt' : i.toNat < l.length := by omega
  refine ⟨hlt', ?_⟩
  unfold pyIndex
  rw [if_neg (by omega : ¬ i < 0), if_pos ⟨h0, hlt⟩]
  rw [List.getD_eq_getElem l 0 hlt']
  rfl

end LogLens

namespace LogLens

/-- Builtin aggregations that require a `value_extractor`. -/
def AggregationType.needsExtractor : AggregationType → Bool
  | AggregationType.count => false
  | AggregationType.rate => false
  | _ => true

/-- Well-behavedness of a metric: its caller-supplied callables never
raise, and the construction-time invariants of the spec hold
(value-requiring aggregations carry a total extractor; a percentile
aggregation carries a percentile in `[0, 100]`). -/
def Metric.Sane (m : Metric) : Prop :=
  (∀ e, ∃ b, m.filter e = Except.ok b) ∧
  (∀ g, m.groupBy = Option.some g → ∀ e, ∃ s, g e = Except.ok s) ∧
  (∀ f, m.aggregation = Aggregation.custom f → ∀ l, ∃ v, f l = Except.ok v) ∧
  (∀ t, m.aggregation = Aggregation.builtin t → t.needsExtractor = true →
    ∃ f, m.valueExtractor = Option.some f ∧ ∀ e, ∃ q, f e = Except.ok q) ∧
  (m.aggregation = Aggregation.builtin AggregationType.percentile →
    ∃ p, m.percentile = Option.some p ∧ 0 ≤ p ∧ p ≤ 100)

/-- COUNT evaluates to the buffer cardinality (also on the empty buffer,
where the source returns the literal `0`). -/
theorem applyAggregation_count (m : Metric)
    (hagg : m.aggregation = Aggregation.builtin AggregationType.count)
    (l : List LogEvent) :
    applyAggregation m l = Except.ok (Option.some (l.length : ℚ)) := by
  cases l with
  | nil =>
    unfold applyAggregation
    rw [hagg]
    norm_num
  | cons e0 rest =>
    unfold applyAggregation
    rw [hagg]

/-- Progress of the group-aggregation loop for a sane metric. -/
theorem aggGroups_ok (m : Metric)
    (hsa : ∀ l, ∃ v, applyAggregation m l = Except.ok v)
    (groups : List (String × List LogEvent)) :
    ∃ out, aggGroups m groups = Except.ok out := by
  induction groups with
  | nil => exact ⟨[], rfl⟩
  | cons kv rest ih =>
    cases kv with
    | mk k es =>
      obtain ⟨v, hv⟩ := hsa es
      obtain ⟨out, hout⟩ := ih
      refine ⟨(k, v) :: out, ?_⟩
      unfold aggGroups
      rw [hv, hout]

/-- Progress of `_apply_aggregation` for a sane metric. -/
theorem applyAggregation_ok (m : Metric) (hs : m.Sane) (l : List LogEvent) :
    ∃ v, applyAggregation m l = Except.ok v := by
  obtain ⟨hfil, hgrp, hcust, hext, hper⟩ := hs
  cases l with
  | nil => exact ⟨_, rfl⟩
  | cons e0 rest =>
    cases hagg : m.aggregation with
    | custom f =>
      obtain ⟨v, hv⟩ := hcust f hagg (e0 :: rest)
      refine ⟨v, ?_⟩
      unfold applyAggregation
      rw [hagg]
      exact hv
    | builtin t =>
      cases t with
      | count => exact ⟨_, applyAggregation_count m hagg (e0 :: rest)⟩
      | rate =>
        unfold applyAggregation
        rw [hagg]
        dsimp only
        split_ifs <;> exact ⟨_, rfl⟩
      | average =>
        obtain ⟨f, hf, hfe⟩ := hext AggregationType.average hagg rfl
        obtain ⟨values, hvals, hlen⟩ := mapE_ok f (e0 :: rest) (fun a _ => hfe a)
        refine ⟨Option.some
          (if values.isEmpty then 0 else values.sum / (values.length : ℚ)), ?_⟩
        unfold applyAggregation requireExtractor
        simp only [hagg, hf, hvals]
      | sum =>
        obtain ⟨f, hf, hfe⟩ := hext AggregationType.sum hagg rfl
        obtain ⟨values, hvals, hlen⟩ := mapE_ok f (e0 :: rest) (fun a _ => hfe a)
        refine ⟨Option.some values.sum, ?_⟩
        unfold applyAggregation requireExtractor
        simp only [hagg, hf, hvals]
      | min =>
        obtain ⟨f, hf, hfe⟩ := hext AggregationType.min hagg rfl
        obtain ⟨values, hvals, hlen⟩ := mapE_ok f (e0 :: rest) (fun a _ => hfe a)
        refine ⟨listMin values, ?_⟩
        unfold applyAggregation requireExtractor
        simp only [hagg, hf, hvals]
      | max =>
        obtain ⟨f, hf, hfe⟩ := hext AggregationType.max hagg rfl
        obtain ⟨values, hvals, hlen⟩ := mapE_ok f (e0 :: rest) (fun a _ => hfe a)
        refine ⟨listMax values, ?_⟩
        unfold applyAggregation requireExtractor
        simp only [hagg, hf, hvals]
      | uniqueCount =>
        obtain ⟨f, hf, hfe⟩ := hext AggregationType.uniqueCount hagg rfl
        obtain ⟨values, hvals, hlen⟩ := mapE_ok f (e0 :: rest) (fun a _ => hfe a)
        refine ⟨Option.some (values.dedup.length : ℚ), ?_⟩
        unfold applyAggregation requireExtractor
        simp only [hagg, hf, hvals]
      | percentile =>
        obtain ⟨f, hf, hfe⟩ := hext AggregationType.percentile hagg rfl
        obtain ⟨p, hp, hp0, hp1⟩ := hper hagg
        obtain ⟨values, hvals, hlen⟩ := mapE_ok f (e0 :: rest) (fun a _ => hfe a)
        have hn : 1 ≤ (values.mergeSort (fun a b => decide (a ≤ b))).length := by
          rw [List.length_mergeSort, hlen]
          simp
        have hx0 : (0 : ℚ) ≤ (p / 100) *
            (((values.mergeSort (fun a b => decide (a ≤ b))).length : ℚ) - 1) := by
          have : (1 : ℚ) ≤ ((values.mergeSort (fun a b => decide (a ≤ b))).length : ℚ) := by
            exact_mod_cast hn
          have h100 : (0 : ℚ) ≤ p / 100 := by positivity
          nlinarith
        have hbounds := percentile_index_bounds
          (values.mergeSort (fun a b => decide (a ≤ b))).length p hp0 hp1 hn
        have htr := truncQ_eq_floor _ hx0
        obtain ⟨hidx, hpy⟩ := pyIndex_ok (values.mergeSort (fun a b => decide (a ≤ b)))
          (truncQ ((p / 100) *
            (((values.mergeSort (fun a b => decide (a ≤ b))).length : ℚ) - 1)))
          (htr ▸ hbounds.1) (htr ▸ hbounds.2)
        refine ⟨Option.some ((values.mergeSort (fun a b => decide (a ≤ b))).get
          ⟨(truncQ ((p / 100) *
            (((values.mergeSort (fun a b => decide (a ≤ b))).length : ℚ) - 1))).toNat,
            hidx⟩), ?_⟩
        unfold applyAggregation requireExtractor
        simp only [hagg, hf, hvals]
        rw [if_neg (by
          intro hempty
          rw [List.isEmpty_iff] at hempty
          rw [hempty] at hn
          simp at hn)]
        simp only [hp, hpy]

/-- Progress of `_compute_metric` for a sane metric. -/
theorem computeMetric_ok (m : Metric) (hs : m.Sane) (events : List LogEvent)
    (ws we : ℤ) : ∃ r, computeMetric m events ws we = Except.ok r := by
  obtain ⟨filtered, hfil⟩ := filterE_ok m.filter events (fun a _ => hs.1 a)
  cases hg : m.groupBy with
  | none =>
    obtain ⟨v, hv⟩ := applyAggregation_ok m hs filtered
    refine ⟨{ metricName := m.name, value := v, windowStart := ws,
                windowEnd := we, grouped := Option.none }, ?_⟩
    unfold computeMetric
    simp only [hfil, hg, hv]
  | some g =>
    obtain ⟨groups, hgroups⟩ := groupEvents_ok g (hs.2.1 g hg) filtered []
    obtain ⟨out, hout⟩ := aggGroups_ok m (applyAggregation_ok m hs) groups
    refine ⟨{ metricName := m.name, value := Option.none, windowStart := ws,
                windowEnd := we, grouped := Option.some out }, ?_⟩
    unfold computeMetric
    simp only [hfil, hg, hgroups, hout]

end LogLens

namespace LogLens

/-- Metrics whose name differs never touch a buffer entry. -/
theorem addEventGo_fst_untouched (e : LogEvent) (ms : List Metric)
    (bufs : Buffers) (acc : List (String × MetricResult)) (nm : String) :
    nm ∉ ms.map Metric.name → (addEventGo e ms bufs acc).1 nm = bufs nm := by
  induction ms generalizing bufs acc with
  | nil => intro _; rfl
  | cons m0 rest ih =>
    intro hnm
    simp only [List.map_cons, List.mem_cons, not_or] at hnm
    obtain ⟨hne, hnm'⟩ := hnm
    cases hb : m0.filter e with
    | error err => simp only [addEventGo, hb]
    | ok b =>
      cases b with
      | false =>
        simp only [addEventGo, hb]
        exact ih bufs acc hnm'
      | true =>
        cases hc : computeMetric m0 (updateBuffer m0.window (bufs m0.name) e)
            (e.timestamp - m0.window) e.timestamp with
        | error err =>
          simp only [addEventGo, hb, hc, setBuf]
          rw [if_neg hne]
        | ok r =>
          simp only [addEventGo, hb, hc]
          rw [ih _ _ hnm']
          simp only [setBuf]
          rw [if_neg hne]

/-- Progress of `add_event` over sane metrics; everything accumulated so
far stays in the returned association list. -/
theorem addEventGo_progress (e : LogEvent) (ms : List Metric) :
    (∀ m' ∈ ms, m'.Sane) → ∀ bufs acc,
      ∃ l, (addEventGo e ms bufs acc).2 = Except.ok l ∧ ∀ x ∈ acc, x ∈ l := by
  induction ms with
  | nil => exact fun _ bufs acc => ⟨acc, rfl, fun x hx => hx⟩
  | cons m0 rest ih =>
    intro hs bufs acc
    have hs0 : m0.Sane := hs m0 (List.mem_cons_self m0 rest)
    have hs' : ∀ m' ∈ rest, m'.Sane := fun m' hm' => hs m' (List.mem_cons_of_mem m0 hm')
    obtain ⟨b, hb⟩ := hs0.1 e
    cases b with
    | false =>
      obtain ⟨l, hl, hsub⟩ := ih hs' bufs acc
      exact ⟨l, by simp only [addEventGo, hb]; exact hl, hsub⟩
    | true =>
      obtain ⟨r, hc⟩ := computeMetric_ok m0 hs0
        (updateBuffer m0.window (bufs m0.name) e) (e.timestamp - m0.window)
        e.timestamp
      obtain ⟨l, hl, hsub⟩ := ih hs'
        (setBuf bufs m0.name (updateBuffer m0.window (bufs m0.name) e))
        (acc ++ [(m0.name, r)])
      refine ⟨l, by simp only [addEventGo, hb, hc]; exact hl, ?_⟩
      intro x hx
      exact hsub x (List.mem_append_left _ hx)

/-- For the (uniquely named) metric `m` with total filter `p`, one
`add_event` call updates `m`'s buffer exactly when `p` accepts the event,
and on acceptance the returned association list holds the result computed
from the updated buffer. -/
theorem addEventGo_target (e : LogEvent) (ms : List Metric) (m : Metric)
    (p : LogEvent → Bool) (hfil : ∀ x, m.filter x = Except.ok (p x)) :
    m ∈ ms → (ms.map Metric.name).Nodup → (∀ m' ∈ ms, m'.Sane) →
    ∀ bufs acc,
      ((addEventGo e ms bufs acc).1 m.name =
        (if p e then updateBuffer m.window (bufs m.name) e else bufs m.name)) ∧
      (p e = true →
        ∃ r l, (addEventGo e ms bufs acc).2 = Except.ok l ∧ (m.name, r) ∈ l ∧
          computeMetric m (updateBuffer m.window (bufs m.name) e)
            (e.timestamp - m.window) e.timestamp = Except.ok r) := by
  induction ms with
  | nil => intro hm; exact absurd hm (List.not_mem_nil m)
  | cons m0 rest ih =>
    intro hm hnd hs bufs acc
    rw [List.map_cons, List.nodup_cons] at hnd
    obtain ⟨hnd0, hnd'⟩ := hnd
    have hs0 : m0.Sane := hs m0 (List.mem_cons_self m0 rest)
    have hs' : ∀ m' ∈ rest, m'.Sane := fun m' hm' => hs m' (List.mem_cons_of_mem m0 hm')
    rcases List.mem_cons.mp hm with heq | hm'
    · subst heq
      cases hpe : p e with
      | false =>
        have hb : m.filter e = Except.ok false := by rw [hfil e, hpe]
        constructor
        · simp only [addEventGo, hb]
          rw [addEventGo_fst_untouched e rest bufs acc m.name hnd0]
          rw [if_neg (by simp [hpe])]
        · intro h
          exact absurd h (by simp [hpe])
      | true =>
        have hb : m.filter e = Except.ok true := by rw [hfil e, hpe]
        obtain ⟨r, hc⟩ := computeMetric_ok m hs0
          (updateBuffer m.window (bufs m.name) e) (e.timestamp - m.window)
          e.timestamp
        constructor
        · simp only [addEventGo, hb, hc]
          rw [addEventGo_fst_untouched e rest _ _ m.name hnd0]
          simp only [setBuf, if_pos rfl]
        · intro _
          obtain ⟨l, hl, hsub⟩ := addEventGo_progress e rest hs'
            (setBuf bufs m.name (updateBuffer m.window (bufs m.name) e))
            (acc ++ [(m.name, r)])
          refine ⟨r, l, by simp only [addEventGo, hb, hc]; exact hl, ?_, hc⟩
          exact hsub _ (List.mem_append_right _ (List.mem_singleton_self _))
    · have hmm0 : m.name ≠ m0.name := by
        intro hcontra
        apply hnd0
        rw [← hcontra]
        exact List.mem_map_of_mem Metric.name hm'
      obtain ⟨b, hb⟩ := hs0.1 e
      cases b with
      | false =>
        simp only [addEventGo, hb]
        exact ih hm' hnd' hs' bufs acc
      | true =>
        obtain ⟨r0, hc⟩ := computeMetric_ok m0 hs0
          (updateBuffer m0.window (bufs m0.name) e) (e.timestamp - m0.window)
          e.timestamp
        simp only [addEventGo, hb, hc]
        have hbufs' : setBuf bufs m0.name
            (updateBuffer m0.window (bufs m0.name) e) m.name = bufs m.name := by
          simp only [setBuf]
          rw [if_neg hmm0]
        have key := ih hm' hnd' hs'
          (setBuf bufs m0.name (updateBuffer m0.window (bufs m0.name) e))
          (acc ++ [(m0.name, r0)])
        rw [hbufs'] at key
        exact key

end LogLens

namespace LogLens

/-- On a list sorted by timestamp, popping stale entries from the head is
the same as filtering the whole list against the cutoff. -/
theorem dropWhile_eq_filter_of_sorted (c : ℤ) (l : List LogEvent)
    (hs : l.Pairwise (fun a b => a.timestamp ≤ b.timestamp)) :
    l.dropWhile (fun x => decide (x.timestamp < c)) =
      l.filter (fun x => decide (c ≤ x.timestamp)) := by
  induction l with
  | nil => rfl
  | cons a t ih =>
    rcases List.pairwise_cons.mp hs with ⟨ha, ht⟩
    by_cases hac : a.timestamp < c
    · rw [List.dropWhile_cons, if_pos (by simpa using hac),
        List.filter_cons_of_neg (by simpa using not_le.mpr hac)]
      exact ih ht
    · rw [List.dropWhile_cons, if_neg (by simpa using hac),
        List.filter_cons_of_pos (by simpa using not_lt.mp hac)]
      congr 1
      symm
      rw [List.filter_eq_self]
      intro b hb
      simpa using le_trans (not_lt.mp hac) (ha b hb)

/-- Every member of a sorted list has timestamp at most that of the last
element. -/
theorem mem_ts_le_getLast (l : List LogEvent) (t : LogEvent)
    (hs : l.Pairwise (fun a b => a.timestamp ≤ b.timestamp))
    (hl : l.getLast? = Option.some t) :
    ∀ x ∈ l, x.timestamp ≤ t.timestamp := by
  have hne : l ≠ [] := by
    intro h
    rw [h] at hl
    simp at hl
  have ht : l.getLast hne = t := by
    have := List.getLast?_eq_getLast l hne
    rw [this] at hl
    exact Option.some_inj.mp hl
  intro x hx
  have hsplit := List.dropLast_append_getLast hne
  rw [← hsplit] at hs hx
  rw [List.pairwise_append] at hs
  rcases List.mem_append.mp hx with hx1 | hx2
  · have := hs.2.2 x hx1 (l.getLast hne) (List.mem_singleton_self _)
    rw [ht] at this
    exact this
  · rw [List.mem_singleton] at hx2
    subst hx2
    rw [ht]

/-- One step of the pure buffer evolution of a single metric with total
filter `p`. -/
def stepBuffer (w : ℤ) (p : LogEvent → Bool) (buf : List LogEvent)
    (e : LogEvent) : List LogEvent :=
  if p e then updateBuffer w buf e else buf

/-- Pure buffer evolution of a single metric from the empty buffer. -/
def foldBuffer (w : ℤ) (p : LogEvent → Bool) (es : List LogEvent) :
    List LogEvent :=
  es.foldl (stepBuffer w p) []

/-- Buffer characterization: after submitting events sorted by timestamp,
the buffer holds exactly the matched events within
`[lastMatched − window, lastMatched]`. -/
theorem foldBuffer_eq (w : ℤ) (p : LogEvent → Bool) (es : List LogEvent)
    (hs : es.Pairwise (fun a b => a.timestamp ≤ b.timestamp)) :
    foldBuffer w p es =
      (match (es.filter p).getLast? with
       | Option.none => []
       | Option.some t =>
         (es.filter p).filter
           (fun x => decide (t.timestamp - w ≤ x.timestamp) &&
             decide (x.timestamp ≤ t.timestamp))) := by
  induction es using List.reverseRecOn with
  | nil => rfl
  | append_singleton es e ih =>
    rw [List.pairwise_append] at hs
    obtain ⟨hs1, _, hbound⟩ := hs
    have hb : ∀ a ∈ es, a.timestamp ≤ e.timestamp := fun a ha =>
      hbound a ha e (List.mem_singleton_self e)
    have hfold : foldBuffer w p (es ++ [e]) =
        stepBuffer w p (foldBuffer w p es) e := by
      unfold foldBuffer
      rw [List.foldl_append]
      rfl
    rw [hfold, ih hs1]
    cases hpe : p e with
    | false =>
      have hfe : (es ++ [e]).filter p = es.filter p := by
        rw [List.filter_append, List.filter_cons_of_neg (by simp [hpe]),
          List.filter_nil, List.append_nil]
      rw [hfe]
      unfold stepBuffer
      rw [if_neg (by simp [hpe])]
    | true =>
      have hfe : (es ++ [e]).filter p = es.filter p ++ [e] := by
        rw [List.filter_append, List.filter_cons_of_pos (by simp [hpe]),
          List.filter_nil]
      rw [hfe, List.getLast?_concat]
      unfold stepBuffer
      rw [if_pos hpe]
      dsimp only
      cases hM : (es.filter p).getLast? with
      | none =>
        rw [List.getLast?_eq_none_iff] at hM
        rw [hM]
        unfold updateBuffer
        simp only [List.nil_append]
        rw [List.dropWhile_cons]
        by_cases hw' : e.timestamp < e.timestamp - w
        · rw [if_pos (by simpa using hw'), List.dropWhile_nil,
            List.filter_cons_of_neg (by simp; omega), List.filter_nil]
        · rw [if_neg (by simpa using hw'),
            List.filter_cons_of_pos (by simp; omega), List.filter_nil]
      | some t =>
        dsimp only
        have hMs : (es.filter p).Pairwise
            (fun a b => a.timestamp ≤ b.timestamp) := hs1.filter p
        have hMe : ∀ a ∈ es.filter p, a.timestamp ≤ e.timestamp :=
          fun a ha => hb a (List.mem_of_mem_filter ha)
        have hMne : es.filter p ≠ [] := by
          intro h
          rw [h] at hM
          simp at hM
        have htM : t ∈ es.filter p := by
          have hgl := List.getLast?_eq_getLast (es.filter p) hMne
          rw [hgl] at hM
          rw [← Option.some_inj.mp hM]
          exact List.getLast_mem hMne
        have hte : t.timestamp ≤ e.timestamp := hMe t htM
        have hxle := mem_ts_le_getLast (es.filter p) t hMs hM
        unfold updateBuffer
        rw [dropWhile_eq_filter_of_sorted (e.timestamp - w) _ (by
          rw [List.pairwise_append]
          refine ⟨(hMs.filter _), by simp, ?_⟩
          intro a ha b hb'
          rw [List.mem_singleton] at hb'
          subst hb'
          exact hMe a (List.mem_of_mem_filter ha))]
        rw [List.filter_append, List.filter_append, List.filter_filter]
        congr 1
        · apply List.filter_congr
          intro x hxM
          have h1 := hxle x hxM
          have h2 : x.timestamp ≤ e.timestamp := le_trans h1 hte
          by_cases hcx : e.timestamp - w ≤ x.timestamp
          · have h3 : t.timestamp - w ≤ x.timestamp := by omega
            simp [hcx, h1, h2, h3]
          · simp [hcx]
        · apply List.filter_congr
          intro x hx
          rw [List.mem_singleton] at hx
          subst hx
          simp

end LogLens

namespace LogLens

/-- Python `events[-1]` on a non-empty list: `getLastD` with the head as
default is the last element. -/
theorem getLastD_eq_getLast {α : Type} (l : List α) :
    ∀ d : α, l.getLastD d = (d :: l).getLast (List.cons_ne_nil d l) := by
  induction l with
  | nil => intro d; rfl
  | cons a t ih =>
    intro d
    rw [List.getLastD_cons, ih a]
    symm
    exact List.getLast_cons (List.cons_ne_nil a t)

/-- A successful `mapE` preserves length. -/
theorem mapE_length {α β : Type} (f : α → Except PyErr β) :
    ∀ (l : List α) (bs : List β), mapE f l = Except.ok bs →
      bs.length = l.length := by
  intro l
  induction l with
  | nil =>
    intro bs h
    injection h with h
    rw [← h]
    rfl
  | cons a rest ih =>
    intro bs h
    unfold mapE at h
    cases hfa : f a with
    | error err => rw [hfa] at h; exact Except.noConfusion h
    | ok b =>
      rw [hfa] at h
      cases hrest : mapE f rest with
      | error err => rw [hrest] at h; exact Except.noConfusion h
      | ok bs' =>
        rw [hrest] at h
        injection h with h
        rw [← h, List.length_cons, ih bs' hrest]
        rfl

/-- Projection of the buffer evolution to a single (uniquely named) sane
metric with total filter: the processor's buffer for it evolves exactly by
`stepBuffer`. -/
theorem runEvents_buffer (ms : List Metric) (m : Metric) (p : LogEvent → Bool)
    (hfil : ∀ x, m.filter x = Except.ok (p x))
    (hm : m ∈ ms) (hnd : (ms.map Metric.name).Nodup)
    (hs : ∀ m' ∈ ms, m'.Sane) (es : List LogEvent) :
    ∀ bufs, runEvents ms es bufs m.name =
      es.foldl (stepBuffer m.window p) (bufs m.name) := by
  induction es with
  | nil => intro bufs; rfl
  | cons e es' ih =>
    intro bufs
    have hstep := (addEventGo_target e ms m p hfil hm hnd hs bufs []).1
    unfold runEvents addEvent
    rw [ih ((addEventGo e ms bufs []).1), List.foldl_cons, hstep]
    rfl

/-- C2 (confirmed): for every metric `m` of a processor (metric names
unique, callables sane) and every event sequence submitted in
non-decreasing timestamp order, the buffer kept for `m` after the last
call contains exactly the submitted events accepted by `m`'s filter whose
timestamp lies in `[t − window, t]`, where `t` is the timestamp of the
most recent accepted event (and the buffer is empty when no event was
accepted). -/
theorem c2_window_monotonicity (ms : List Metric) (m : Metric)
    (p : LogEvent → Bool) (es : List LogEvent)
    (hm : m ∈ ms) (hnd : (ms.map Metric.name).Nodup)
    (hfil : ∀ x, m.filter x = Except.ok (p x))
    (hs : ∀ m' ∈ ms, m'.Sane)
    (hsort : es.Pairwise (fun a b => a.timestamp ≤ b.timestamp)) :
    (es.filter p = [] → runEvents ms es (fun _ => []) m.name = []) ∧
    (∀ t, (es.filter p).getLast? = Option.some t →
      runEvents ms es (fun _ => []) m.name =
        (es.filter p).filter
          (fun x => decide (t.timestamp - m.window ≤ x.timestamp) &&
            decide (x.timestamp ≤ t.timestamp))) := by
  have hrun := runEvents_buffer ms m p hfil hm hnd hs es (fun _ => [])
  have hchar := foldBuffer_eq m.window p es hsort
  unfold foldBuffer at hchar
  rw [hrun, hchar]
  constructor
  · intro hempty
    rw [hempty]
    rfl
  · intro t ht
    rw [ht]

end LogLens

namespace LogLens

/-- Demo events used by the concrete witnesses (timestamps in
microseconds: 0 s, 3 s, 10 s). -/
def evA : LogEvent := ⟨0, "ERROR", "app", "boom a", []⟩

/-- Demo event at 3 s with level INFO. -/
def evB : LogEvent := ⟨3000000, "INFO", "app", "note b", []⟩

/-- Demo event at 10 s with level ERROR. -/
def evC : LogEvent := ⟨10000000, "ERROR", "app", "boom c", []⟩

/-- Demo COUNT/5s metric on level ERROR. -/
def mCountDemo : Metric :=
  { name := "errors"
    filter := fun x => Except.ok (decide (x.level = "ERROR"))
    aggregation := Aggregation.builtin AggregationType.count
    window := 5000000 }

/-- The demo COUNT metric is sane. -/
theorem mCountDemo_sane : mCountDemo.Sane := by
  refine ⟨fun e => ⟨_, rfl⟩, ?_, ?_, ?_, ?_⟩
  · intro g hg
    exact Option.noConfusion hg
  · intro f hf
    exact Aggregation.noConfusion hf
  · intro t ht hreq
    injection ht with ht
    rw [← ht] at hreq
    exact absurd hreq (by decide)
  · intro hp
    injection hp with hp
    exact AggregationType.noConfusion hp

/-- Witness for C2: submitting ERROR at 0 s, INFO at 3 s, ERROR at 10 s to
a COUNT/5s metric on level ERROR leaves the buffer holding exactly the
matched events within the 5 s window ending at 10 s. -/
theorem c2_window_monotonicity_witness :
    (([evA, evB, evC].filter
        (fun x => decide (x.level = "ERROR"))).getLast? = Option.some evC) ∧
      runEvents [mCountDemo] [evA, evB, evC] (fun _ => []) mCountDemo.name =
        ([evA, evB, evC].filter (fun x => decide (x.level = "ERROR"))).filter
          (fun x => decide (evC.timestamp - mCountDemo.window ≤ x.timestamp) &&
            decide (x.timestamp ≤ evC.timestamp)) := by
  refine ⟨rfl, ?_⟩
  exact (c2_window_monotonicity [mCountDemo] mCountDemo
    (fun x => decide (x.level = "ERROR")) [evA, evB, evC]
    (List.mem_singleton_self mCountDemo) (by simp)
    (fun x => rfl)
    (fun m' hm' => by
      rw [List.mem_singleton] at hm'
      rw [hm']
      exact mCountDemo_sane)
    (by
      rw [show [evA, evB, evC] = [evA, evB] ++ [evC] from rfl]
      rw [List.pairwise_append]
      refine ⟨?_, by simp, ?_⟩
      · rw [List.pairwise_cons]
        refine ⟨?_, by simp⟩
        intro b hb
        rw [List.mem_singleton] at hb
        rw [hb]
        norm_num [evA, evB]
      · intro a ha b hb
        rw [List.mem_singleton] at hb
        rw [hb]
        rcases List.mem_cons.mp ha with h | h
        · rw [h]; norm_num [evA, evC]
        · rw [List.mem_singleton] at h
          rw [h]; norm_num [evB, evC])).2 evC rfl

/-- C4 (confirmed): for every non-empty buffered event list aggregated
with RATE, the result equals `count / span` in seconds when the span from
first to last event is positive, and equals `count` (as a float) when the
span is zero; in particular a single event yields `1.0`, never a
division-by-zero error. -/
theorem c4_rate_definition (m : Metric) (events : List LogEvent)
    (hne : events ≠ [])
    (hagg : m.aggregation = Aggregation.builtin AggregationType.rate) :
    (totalSeconds ((events.getLast hne).timestamp -
        (events.head hne).timestamp) = 0 →
      applyAggregation m events = Except.ok (Option.some (events.length : ℚ))) ∧
    (0 < totalSeconds ((events.getLast hne).timestamp -
        (events.head hne).timestamp) →
      applyAggregation m events = Except.ok (Option.some ((events.length : ℚ) /
        totalSeconds ((events.getLast hne).timestamp -
          (events.head hne).timestamp)))) ∧
    (∀ e, events = [e] →
      applyAggregation m events = Except.ok (Option.some 1)) := by
  cases events with
  | nil => exact absurd rfl hne
  | cons e0 rest =>
    have hgl : (e0 :: rest).getLast (List.cons_ne_nil e0 rest) =
        rest.getLastD e0 := (getLastD_eq_getLast rest e0).symm
    refine ⟨?_, ?_, ?_⟩
    · intro hz
      rw [hgl] at hz
      simp only [List.head_cons] at hz
      unfold applyAggregation
      rw [hagg]
      dsimp only
      rw [if_pos hz]
    · intro hpos
      rw [hgl] at hpos
      simp only [List.head_cons] at hpos
      unfold applyAggregation
      rw [hagg]
      dsimp only
      rw [if_neg (ne_of_gt hpos), if_pos hpos, hgl]
      rfl
    · intro e hev
      obtain ⟨he, hr⟩ := List.cons.inj hev
      subst he
      subst hr
      unfold applyAggregation
      rw [hagg]
      dsimp only
      rw [if_pos (by unfold totalSeconds; norm_num : totalSeconds
        ((List.getLastD [] e0).timestamp - e0.timestamp) = 0)]
      norm_num

/-- Demo RATE/1m metric accepting every event. -/
def mRateDemo : Metric :=
  { name := "warning_rate"
    filter := fun _ => Except.ok true
    aggregation := Aggregation.builtin AggregationType.rate
    window := 60000000 }

/-- Witness for C4: a single buffered event yields rate `1.0`. -/
theorem c4_rate_definition_witness :
    ([evA] : List LogEvent) ≠ [] ∧
      applyAggregation mRateDemo [evA] = Except.ok (Option.some 1) :=
  ⟨by simp,
    (c4_rate_definition mRateDemo [evA] (by simp) rfl).2.2 evA rfl⟩

end LogLens

namespace LogLens

/-- With a non-negative window the freshly appended event survives the
head-eviction loop (its timestamp equals the window end). -/
theorem mem_updateBuffer_self (w : ℤ) (buf : List LogEvent) (e : LogEvent)
    (hw : 0 ≤ w) : e ∈ updateBuffer w buf e := by
  unfold updateBuffer
  have hpe : decide (e.timestamp < e.timestamp - w) = false :=
    decide_eq_false (by omega)
  induction buf with
  | nil =>
    rw [List.nil_append, List.dropWhile_cons]
    simp only [hpe]
    simp
  | cons a t ih =>
    rw [List.cons_append, List.dropWhile_cons]
    by_cases ha : a.timestamp < e.timestamp - w
    · rw [if_pos (by simpa using ha)]
      exact ih
    · rw [if_neg (by simpa using ha)]
      exact List.mem_cons_of_mem a (List.mem_append_right t
        (List.mem_singleton_self e))

/-- Demo AVERAGE metric whose caller-supplied `value_extractor` raises on
every event (the raising callable is modelled as `userErr 0`). -/
def mExtRaises : Metric :=
  { name := "avg_latency"
    filter := fun _ => Except.ok true
    aggregation := Aggregation.builtin AggregationType.average
    window := 300000000
    valueExtractor := Option.some (fun _ => Except.error (PyErr.userErr 0)) }

/-- Fresh (empty) per-metric buffers. -/
def emptyBufs : Buffers := fun _ => []

/-- C3 counterexample: the metric's caller-supplied `value_extractor`
raises while `add_event` aggregates (the propagated error is the
extractor's own), yet the buffer was already mutated in place and retains
the event — refuting "the per-metric event buffers are left unchanged from
their state before the call" and "the event that caused the error is not
retained in any buffer". -/
theorem c3_counterexample :
    mExtRaises.valueExtractor =
        Option.some (fun _ => Except.error (PyErr.userErr 0)) ∧
      (addEvent [mExtRaises] emptyBufs evA).1 "avg_latency" = [evA] ∧
      emptyBufs "avg_latency" = [] ∧
      (addEvent [mExtRaises] emptyBufs evA).2 =
        Except.error (PyErr.userErr 0) := by
  refine ⟨rfl, ?_, rfl, ?_⟩ <;> rfl

/-- C3 (amended): an error raised by a caller-supplied callable propagates
to the `add_event` caller; an error raised in the metric's filter leaves
the buffers untouched, but an error raised at aggregation time (a raising
`value_extractor`, `group_by` or custom aggregation inside
`_compute_metric`) happens after the failing metric's buffer was already
updated in place, so that buffer keeps the update and (for a non-negative
window) retains the event that caused the error. -/
theorem c3_error_propagation (m : Metric) (bufs : Buffers) (e : LogEvent) :
    (∀ err, m.filter e = Except.error err →
      addEvent [m] bufs e = (bufs, Except.error err)) ∧
    (∀ err, m.filter e = Except.ok true →
      computeMetric m (updateBuffer m.window (bufs m.name) e)
          (e.timestamp - m.window) e.timestamp = Except.error err →
      addEvent [m] bufs e =
        (setBuf bufs m.name (updateBuffer m.window (bufs m.name) e),
          Except.error err)) ∧
    (0 ≤ m.window → e ∈ updateBuffer m.window (bufs m.name) e) := by
  refine ⟨?_, ?_, ?_⟩
  · intro err h
    unfold addEvent
    simp only [addEventGo, h]
  · intro err h hc
    unfold addEvent
    simp only [addEventGo, h, hc]
  · intro hw
    exact mem_updateBuffer_self m.window (bufs m.name) e hw

/-- Witness for C3: the raising caller-supplied extractor's error
propagates out of `add_event` and the event stays in the failing metric's
buffer. -/
theorem c3_error_propagation_witness :
    addEvent [mExtRaises] emptyBufs evA =
      (setBuf emptyBufs "avg_latency"
        (updateBuffer mExtRaises.window (emptyBufs "avg_latency") evA),
        Except.error (PyErr.userErr 0)) ∧
      evA ∈ updateBuffer mExtRaises.window (emptyBufs "avg_latency") evA := by
  constructor
  · exact (c3_error_propagation mExtRaises emptyBufs evA).2.1
      (PyErr.userErr 0) rfl rfl
  · exact (c3_error_propagation mExtRaises emptyBufs evA).2.2 (by decide)

/-- Demo COUNT metric whose window is a negative `timedelta` (the source
validates only the type of a directly supplied window, not its sign). -/
def mNegWindow : Metric :=
  { name := "neg"
    filter := fun _ => Except.ok true
    aggregation := Aggregation.builtin AggregationType.count
    window := -1 }

/-- C9 counterexample: with a (constructible) negative window the freshly
added event is evicted immediately: `add_event` succeeds, the buffer ends
up empty and the non-grouped COUNT result is `0`, not at least 1. -/
theorem c9_counterexample :
    (addEvent [mNegWindow] emptyBufs evA).1 "neg" = [] ∧
      (addEvent [mNegWindow] emptyBufs evA).2 =
        Except.ok [("neg",
          { metricName := "neg", value := Option.some 0,
            windowStart := 1, windowEnd := 0, grouped := Option.none })] := by
  constructor <;> rfl

/-- C9 (amended): for a metric with **non-negative** window whose filter
accepts the event, a successful `add_event` never evicts the event just
added (its timestamp equals the window end), so the buffer is non-empty
afterwards and a non-grouped COUNT metric reports a value of at least 1. -/
theorem c9_count_at_least_one (ms : List Metric) (m : Metric)
    (p : LogEvent → Bool) (bufs : Buffers) (e : LogEvent)
    (hm : m ∈ ms) (hnd : (ms.map Metric.name).Nodup)
    (hs : ∀ m' ∈ ms, m'.Sane)
    (hfil : ∀ x, m.filter x = Except.ok (p x))
    (hpe : p e = true) (hw : 0 ≤ m.window)
    (hagg : m.aggregation = Aggregation.builtin AggregationType.count)
    (hg : m.groupBy = Option.none) :
    (addEvent ms bufs e).1 m.name = updateBuffer m.window (bufs m.name) e ∧
    e ∈ (addEvent ms bufs e).1 m.name ∧
    (∃ r l, (addEvent ms bufs e).2 = Except.ok l ∧ (m.name, r) ∈ l ∧
      ∃ q : ℚ, r.value = Option.some q ∧ 1 ≤ q) := by
  have htarget := addEventGo_target e ms m p hfil hm hnd hs bufs []
  have hbuf : (addEvent ms bufs e).1 m.name =
      updateBuffer m.window (bufs m.name) e := by
    unfold addEvent
    rw [htarget.1, if_pos hpe]
  refine ⟨hbuf, ?_, ?_⟩
  · rw [hbuf]
    exact mem_updateBuffer_self _ _ _ hw
  · obtain ⟨r, l, hok, hmem, hc⟩ := htarget.2 hpe
    have hfeq : m.filter = fun x => Except.ok (p x) := funext hfil
    have hcm : computeMetric m (updateBuffer m.window (bufs m.name) e)
        (e.timestamp - m.window) e.timestamp = Except.ok
        { metricName := m.name,
          value := Option.some
            (((updateBuffer m.window (bufs m.name) e).filter p).length : ℚ),
          windowStart := e.timestamp - m.window, windowEnd := e.timestamp,
          grouped := Option.none } := by
      unfold computeMetric
      rw [hfeq, filterE_total, hg]
      dsimp only
      rw [applyAggregation_count m hagg]
    have hrr := hcm.symm.trans hc
    injection hrr with hrr
    refine ⟨r, l, by unfold addEvent; exact hok, hmem,
      (((updateBuffer m.window (bufs m.name) e).filter p).length : ℚ), ?_, ?_⟩
    · rw [← hrr]
    · have hmemf : e ∈ (updateBuffer m.window (bufs m.name) e).filter p :=
        List.mem_filter.mpr ⟨mem_updateBuffer_self _ _ _ hw, hpe⟩
      have hlen : 1 ≤ ((updateBuffer m.window (bufs m.name) e).filter p).length :=
        List.length_pos.mpr (List.ne_nil_of_mem hmemf)
      exact_mod_cast hlen

/-- Witness for C9: the demo COUNT/5s ERROR metric on a fresh processor
accepting an ERROR event keeps the event and reports count ≥ 1. -/
theorem c9_count_at_least_one_witness :
    (addEvent [mCountDemo] emptyBufs evA).1 mCountDemo.name =
        updateBuffer mCountDemo.window (emptyBufs mCountDemo.name) evA ∧
      evA ∈ (addEvent [mCountDemo] emptyBufs evA).1 mCountDemo.name ∧
      (∃ r l, (addEvent [mCountDemo] emptyBufs evA).2 = Except.ok l ∧
        (mCountDemo.name, r) ∈ l ∧ ∃ q : ℚ, r.value = Option.some q ∧ 1 ≤ q) :=
  c9_count_at_least_one [mCountDemo] mCountDemo
    (fun x => decide (x.level = "ERROR")) emptyBufs evA
    (List.mem_singleton_self _) (by simp)
    (fun m' hm' => by
      rw [List.mem_singleton] at hm'
      rw [hm']
      exact mCountDemo_sane)
    (fun x => rfl) (by decide) (by decide) rfl rfl

end LogLens

namespace LogLens

/-- C6 (confirmed): for every non-empty buffered event list of size `n`
and every PERCENTILE(p) metric with a value extractor (`0 ≤ p ≤ 100`, as
validated at construction), the aggregation result is the element at index
`⌊p/100 · (n−1)⌋` of the extracted values sorted ascending (nearest-rank,
lower side, no interpolation) — in particular the index is in range and
Python's `int()` truncation agrees with the floor. -/
theorem c6_percentile_nearest_rank (m : Metric) (f : LogEvent → Except PyErr ℚ)
    (p : ℚ) (events : List LogEvent) (values : List ℚ)
    (hne : events ≠ [])
    (hagg : m.aggregation = Aggregation.builtin AggregationType.percentile)
    (hext : m.valueExtractor = Option.some f)
    (hper : m.percentile = Option.some p)
    (hvals : mapE f events = Except.ok values)
    (hp0 : 0 ≤ p) (hp1 : p ≤ 100) :
    ∃ h : (⌊(p / 100) * ((values.length : ℚ) - 1)⌋).toNat <
        (values.mergeSort (fun a b => decide (a ≤ b))).length,
      applyAggregation m events =
        Except.ok (Option.some
          ((values.mergeSort (fun a b => decide (a ≤ b))).get
            ⟨(⌊(p / 100) * ((values.length : ℚ) - 1)⌋).toNat, h⟩)) := by
  cases events with
  | nil => exact absurd rfl hne
  | cons e0 rest =>
    have hlen : values.length = (e0 :: rest).length := mapE_length f _ _ hvals
    have hsl : (values.mergeSort (fun a b => decide (a ≤ b))).length =
        values.length := List.length_mergeSort values
    have hn : 1 ≤ values.length := by
      rw [hlen]
      simp
    have hx0 : (0 : ℚ) ≤ (p / 100) * ((values.length : ℚ) - 1) := by
      have h1 : (1 : ℚ) ≤ (values.length : ℚ) := by exact_mod_cast hn
      have h100 : (0 : ℚ) ≤ p / 100 := by positivity
      nlinarith
    have hbounds := percentile_index_bounds values.length p hp0 hp1 hn
    have htr := truncQ_eq_floor _ hx0
    obtain ⟨hidx, hpy⟩ := pyIndex_ok (values.mergeSort (fun a b => decide (a ≤ b)))
      ⌊(p / 100) * ((values.length : ℚ) - 1)⌋
      hbounds.1 (by rw [hsl]; exact_mod_cast hbounds.2)
    refine ⟨hidx, ?_⟩
    unfold applyAggregation requireExtractor
    simp only [hagg, hext, hvals]
    rw [if_neg (by
      intro hempty
      rw [List.isEmpty_iff] at hempty
      have := hsl
      rw [hempty] at this
      simp at this
      omega)]
    simp only [hper]
    rw [show ((values.mergeSort (fun a b => decide (a ≤ b))).length : ℚ) =
      (values.length : ℚ) by exact_mod_cast hsl]
    rw [htr, hpy]

end LogLens

namespace LogLens

/-- Demo PERCENTILE(50) metric extracting the timestamp in seconds. -/
def mPctDemo : Metric :=
  { name := "p50"
    filter := fun _ => Except.ok true
    aggregation := Aggregation.builtin AggregationType.percentile
    window := 60000000
    valueExtractor := Option.some (fun e => Except.ok ((e.timestamp : ℚ)))
    percentile := Option.some 50 }

/-- Witness for C6: the median of two extracted values is the lower one. -/
theorem c6_percentile_nearest_rank_witness :
    ([evA, evB] : List LogEvent) ≠ [] ∧
      ∃ h : (⌊((50 : ℚ) / 100) *
          ((([(evA.timestamp : ℚ), (evB.timestamp : ℚ)]).length : ℚ) - 1)⌋).toNat <
          (([(evA.timestamp : ℚ), (evB.timestamp : ℚ)]).mergeSort
            (fun a b => decide (a ≤ b))).length,
        applyAggregation mPctDemo [evA, evB] =
          Except.ok (Option.some
            ((([(evA.timestamp : ℚ), (evB.timestamp : ℚ)]).mergeSort
                (fun a b => decide (a ≤ b))).get
              ⟨(⌊((50 : ℚ) / 100) *
                ((([(evA.timestamp : ℚ), (evB.timestamp : ℚ)]).length : ℚ) - 1)⌋).toNat,
                h⟩)) :=
  ⟨by simp,
    c6_percentile_nearest_rank mPctDemo (fun e => Except.ok ((e.timestamp : ℚ)))
      50 [evA, evB] [(evA.timestamp : ℚ), (evB.timestamp : ℚ)]
      (by simp) rfl rfl rfl rfl (by norm_num) (by norm_num)⟩

/-! ## Storage query facade (`loglens/storage/query.py`) -/

/-- A persisted row of the `metrics` table (the columns
`query_metrics_by_time_bucket` touches; a grouped metric's row stores
`value` NULL). -/
structure MetricRow : Type where
  metricName : String
  windowStart : ℤ
  windowEnd : ℤ
  value : Option ℚ
deriving DecidableEq

/-- The `aggregation` argument of `query_metrics_by_time_bucket`. -/
inductive SqlAgg : Type
  | avg
  | total
  | maxOf
  | minOf
  | countOf
deriving DecidableEq

/-- The WHERE conditions built from `metric_name = ?`,
`window_start >= ?` and `window_end <= ?`. -/
def rowFilter (name : String) (startT endT : Option ℤ) (r : MetricRow) : Bool :=
  decide (r.metricName = name) &&
    (match startT with
     | Option.none => true
     | Option.some s => decide (s ≤ r.windowStart)) &&
    (match endT with
     | Option.none => true
     | Option.some t => decide (r.windowEnd ≤ t))

/-- SQL aggregate over the (non-NULL) `value` column of one group. -/
def sqlAggApply : SqlAgg → List ℚ → Option ℚ
  | SqlAgg.avg, vs =>
      if vs.isEmpty then Option.none else Option.some (vs.sum / (vs.length : ℚ))
  | SqlAgg.total, vs =>
      if vs.isEmpty then Option.none else Option.some vs.sum
  | SqlAgg.maxOf, vs => listMax vs
  | SqlAgg.minOf, vs => listMin vs
  | SqlAgg.countOf, vs => Option.some (vs.length : ℚ)

/-- One output row: `bucket_time`, `metric_value`, `sample_count`. -/
structure BucketRow : Type where
  bucketTime : ℤ
  metricValue : Option ℚ
  sampleCount : ℕ
deriving DecidableEq

/-- `MetricQuery.query_metrics_by_time_bucket` over a list of stored rows.
`trunc` models `DATE_TRUNC(bucket, window_start)` (any truncation
function).  The WHERE clause is the name/time filters AND
`value IS NOT NULL`; GROUP BY the truncated start, ORDER BY bucket_time
ascending; `sample_count` is `COUNT(*)` of the group. -/
def queryMetricsByTimeBucket (trunc : ℤ → ℤ) (name : String)
    (startT endT : Option ℤ) (agg : SqlAgg) (rows : List MetricRow) :
    List BucketRow :=
  let filtered := rows.filter
    (fun r => rowFilter name startT endT r && r.value.isSome)
  (((filtered.map (fun r => trunc r.windowStart)).dedup).mergeSort
      (fun a b => decide (a ≤ b))).map
    (fun b =>
      let grp := filtered.filter (fun r => decide (trunc r.windowStart = b))
      { bucketTime := b
        metricValue := sqlAggApply agg (grp.filterMap (fun r => r.value))
        sampleCount := grp.length })

/-- Demo stored metric row with a value. -/
def demoRow1 : MetricRow :=
  { metricName := "error_rate", windowStart := 0, windowEnd := 10,
    value := Option.some 5 }

/-- Demo stored metric row with NULL value (as a grouped metric stores). -/
def demoRow2 : MetricRow :=
  { metricName := "error_rate", windowStart := 0, windowEnd := 10,
    value := Option.none }

/-- Demo `metrics` table contents. -/
def demoRows : List MetricRow := [demoRow1, demoRow2]

/-- Evaluation of the demo query: one bucket, counting only the non-NULL
row. -/
theorem c7_demo_query_eq :
    queryMetricsByTimeBucket (fun t => t) "error_rate" Option.none Option.none
      SqlAgg.countOf demoRows =
      [{ bucketTime := 0, metricValue := Option.some 1, sampleCount := 1 }] := by
  unfold queryMetricsByTimeBucket
  dsimp only
  rw [show demoRows.filter
      (fun r => rowFilter "error_rate" Option.none Option.none r &&
        r.value.isSome) = [demoRow1] from rfl]
  rw [show (([demoRow1].map (fun r => (fun t : ℤ => t) r.windowStart)).dedup) =
    [(0 : ℤ)] from rfl]
  rw [List.mergeSort_singleton]
  norm_num [demoRow1, sqlAggApply, List.filterMap]

end LogLens

namespace LogLens

/-- C7 counterexample: with a NULL-valued row present (as grouped metrics
store), the returned bucket's `sample_count` is 1, while the number of
stored rows satisfying the claim's name/window filters in that bucket is
2 — the claim omits the query's `value IS NOT NULL` conjunct. -/
theorem c7_counterexample :
    (queryMetricsByTimeBucket (fun t => t) "error_rate" Option.none Option.none
        SqlAgg.countOf demoRows).map (fun r => (r.bucketTime, r.sampleCount)) =
      [((0 : ℤ), (1 : ℕ))] ∧
      (demoRows.filter (fun r =>
        rowFilter "error_rate" Option.none Option.none r &&
          decide ((fun t : ℤ => t) r.windowStart = (0 : ℤ)))).length = 2 := by
  constructor
  · rw [c7_demo_query_eq]
    rfl
  · rfl

/-- C7 (amended): for every bucket row returned by
`query_metrics_by_time_bucket`, its `sample_count` equals the number of
stored metric rows that satisfy the query's `metric_name`,
`window_start` and `window_end` filters, have a **non-NULL value**, and
whose truncated `window_start` equals the row's `bucket_time`. -/
theorem c7_sample_count (trunc : ℤ → ℤ) (name : String)
    (startT endT : Option ℤ) (agg : SqlAgg) (rows : List MetricRow)
    (row : BucketRow)
    (hrow : row ∈ queryMetricsByTimeBucket trunc name startT endT agg rows) :
    row.sampleCount = (rows.filter (fun r =>
      rowFilter name startT endT r && r.value.isSome &&
        decide (trunc r.windowStart = row.bucketTime))).length := by
  unfold queryMetricsByTimeBucket at hrow
  dsimp only at hrow
  rw [List.mem_map] at hrow
  obtain ⟨b, _, heq⟩ := hrow
  rw [← heq]
  dsimp only
  rw [List.filter_filter]
  congr 1
  apply List.filter_congr
  intro r _
  exact Bool.and_comm _ _

/-- Witness for C7: the demo bucket row's sample count matches the
not-NULL-filtered row count. -/
theorem c7_sample_count_witness :
    ({ bucketTime := 0, metricValue := Option.some 1, sampleCount := 1 } :
        BucketRow) ∈
      queryMetricsByTimeBucket (fun t => t) "error_rate" Option.none
        Option.none SqlAgg.countOf demoRows ∧
      ({ bucketTime := 0, metricValue := Option.some 1, sampleCount := 1 } :
        BucketRow).sampleCount =
      (demoRows.filter (fun r =>
        rowFilter "error_rate" Option.none Option.none r && r.value.isSome &&
          decide ((fun t : ℤ => t) r.windowStart =
            ({ bucketTime := 0, metricValue := Option.some 1,
                sampleCount := 1 } : BucketRow).bucketTime))).length := by
  have hmem : ({ bucketTime := 0, metricValue := Option.some 1, sampleCount := 1 } : BucketRow) ∈ queryMetricsByTimeBucket (fun t => t) "error_rate" Option.none Option.none SqlAgg.countOf demoRows := by
    rw [c7_demo_query_eq]
    exact List.mem_singleton_self _
  exact ⟨hmem, c7_sample_count (fun t => t) "error_rate" Option.none
    Option.none SqlAgg.countOf demoRows _ hmem⟩

end LogLens

namespace LogLens

/-! ## Event model round-trip (`loglens/models.py`) -/

/-- `LogEvent.VALID_LEVELS`. -/
def VALID_LEVELS : List String :=
  ["DEBUG", "INFO", "WARNING", "ERROR", "CRITICAL", "TRACE", "FATAL"]

/-- Decimal rendering of a natural number as character codes (`str`:
`"0"` for zero, most significant digit first). -/
def natChars (n : ℕ) : List ℕ :=
  if n = 0 then [48] else (Nat.digits 10 n).reverse.map (fun d => 48 + d)

/-- Model of `datetime.isoformat()`: an injective decimal rendering of the
instant (microseconds since the epoch) as a list of character codes, with
45 (`'-'`) prefixed for negative instants. -/
def isoFormat (t : ℤ) : List ℕ :=
  if t < 0 then 45 :: natChars t.natAbs else natChars t.natAbs

/-- Parse a run of decimal digit codes; anything else is rejected. -/
def parseDigits (s : List ℕ) : Option ℕ :=
  if s.all (fun c => decide (48 ≤ c) && decide (c < 58)) then
    Option.some (Nat.ofDigits 10 ((s.map (fun c => c - 48)).reverse))
  else Option.none

/-- Model of `datetime.fromisoformat()`: the parser of `isoFormat`
(stdlib contract: `fromisoformat` is designed to parse the output of
`isoformat`); malformed input raises, modelled as `none`. -/
def parseIso : List ℕ → Option ℤ
  | [] => Option.none
  | c :: restC =>
    if c = 45 then (parseDigits restC).map (fun n : ℕ => -(n : ℤ))
    else (parseDigits (c :: restC)).map (fun n : ℕ => (n : ℤ))

/-- Round-trip of the decimal rendering of naturals. -/
theorem parseDigits_natChars (n : ℕ) :
    parseDigits (natChars n) = Option.some n := by
  unfold natChars
  by_cases hn : n = 0
  · rw [if_pos hn, hn]
    rfl
  · rw [if_neg hn]
    unfold parseDigits
    have hvalid : ((Nat.digits 10 n).reverse.map (fun d => 48 + d)).all
        (fun c => decide (48 ≤ c) && decide (c < 58)) = true := by
      rw [List.all_eq_true]
      intro c hc
      rw [List.mem_map] at hc
      obtain ⟨d, hd, hcd⟩ := hc
      rw [List.mem_reverse] at hd
      have hd10 : d < 10 := Nat.digits_lt_base (by norm_num) hd
      rw [← hcd]
      simp
      omega
    rw [if_pos hvalid, List.map_map]
    have hmap : ((Nat.digits 10 n).reverse.map
        ((fun c => c - 48) ∘ (fun d : ℕ => 48 + d))) =
        (Nat.digits 10 n).reverse := by
      have hid : ((fun c => c - 48) ∘ (fun d : ℕ => 48 + d)) = id := by
        funext d
        simp
      rw [hid, List.map_id]
    rw [hmap, List.reverse_reverse, Nat.ofDigits_digits]

/-- Round-trip of the instant encoding: `fromisoformat ∘ isoformat` is the
identity, as the stdlib guarantees. -/
theorem parseIso_isoFormat (t : ℤ) : parseIso (isoFormat t) = Option.some t := by
  have hshape : ∀ n : ℕ, ∃ c restC, natChars n = c :: restC ∧ 48 ≤ c := by
    intro n
    unfold natChars
    by_cases hn : n = 0
    · rw [if_pos hn]
      exact ⟨48, [], rfl, le_refl 48⟩
    · rw [if_neg hn]
      have hdig : Nat.digits 10 n ≠ [] := Nat.digits_ne_nil_iff_ne_zero.mpr hn
      cases hrev : (Nat.digits 10 n).reverse with
      | nil =>
        exact absurd (by simpa using hrev) hdig
      | cons d ds =>
        rw [List.map_cons]
        exact ⟨48 + d, ds.map (fun x => 48 + x), rfl, by omega⟩
  unfold isoFormat
  by_cases ht : t < 0
  · rw [if_pos ht]
    simp only [parseIso]
    rw [if_pos trivial, parseDigits_natChars]
    have habs : -((t.natAbs : ℤ)) = t := by omega
    simp only [Option.map_some']
    rw [habs]
  · rw [if_neg ht]
    obtain ⟨c, restC, hcr, hc48⟩ := hshape t.natAbs
    rw [hcr]
    simp only [parseIso]
    rw [if_neg (by omega : ¬ c = 45), ← hcr, parseDigits_natChars]
    have habs : ((t.natAbs : ℤ)) = t := by omega
    simp only [Option.map_some']
    rw [habs]

/-- The `timestamp` entry of the dictionary: `to_dict` writes the
isoformat string; `from_dict` also accepts a datetime object. -/
inductive TimeField : Type
  | asStr (s : List ℕ)
  | asDt (t : ℤ)

/-- The dictionary shape `to_dict` emits and `from_dict` consumes
(`level` and `metadata` are read with `.get` defaults). -/
structure EventDict : Type where
  timestamp : TimeField
  level : Option String
  source : String
  message : String
  metadata : Option (List (String × String))

/-- `LogEvent` construction including `__post_init__` validation: level
upper-cased and checked against the allowed set, source and message
non-empty after strip, absent metadata replaced by the empty bag. -/
def mkLogEvent (ts : ℤ) (level source message : String)
    (metadata : Option (List (String × String))) : Except PyErr LogEvent :=
  let levelUpper := pyUpper level
  if VALID_LEVELS.contains levelUpper = false then
    Except.error (PyErr.valueErr "level must be one of VALID_LEVELS")
  else if pyStrip source = "" then
    Except.error (PyErr.valueErr "source cannot be empty")
  else if pyStrip message = "" then
    Except.error (PyErr.valueErr "message cannot be empty")
  else
    Except.ok { timestamp := ts, level := levelUpper, source := source,
                message := message, metadata := metadata.getD [] }

/-- `LogEvent.to_dict`. -/
def toDict (e : LogEvent) : EventDict :=
  { timestamp := TimeField.asStr (isoFormat e.timestamp)
    level := Option.some e.level
    source := e.source
    message := e.message
    metadata := Option.some e.metadata }

/-- `LogEvent.from_dict`: parse a string timestamp (or take a datetime),
default the level to INFO and the metadata to the empty bag, construct. -/
def fromDict (d : EventDict) : Except PyErr LogEvent :=
  match d.timestamp with
  | TimeField.asStr s =>
    match parseIso s with
    | Option.none => Except.error (PyErr.valueErr "invalid isoformat string")
    | Option.some t =>
        mkLogEvent t (d.level.getD "INFO") d.source d.message
          (Option.some (d.metadata.getD []))
  | TimeField.asDt t =>
      mkLogEvent t (d.level.getD "INFO") d.source d.message
        (Option.some (d.metadata.getD []))

/-- Validity of an event per the data model: level in the allowed
(upper-case) set, source and message non-empty after strip. -/
def LogEvent.Valid (e : LogEvent) : Prop :=
  VALID_LEVELS.contains e.level = true ∧ pyStrip e.source ≠ "" ∧
    pyStrip e.message ≠ ""

/-- C8 (confirmed): for every valid `LogEvent` e,
`from_dict(to_dict(e))` reconstructs an event structurally equal to e
(equal timestamp, level, source, message and metadata). -/
theorem c8_roundtrip (e : LogEvent) (hv : e.Valid) :
    fromDict (toDict e) = Except.ok e := by
  obtain ⟨hlev, hsrc, hmsg⟩ := hv
  have hupper : pyUpper e.level = e.level := by
    have hm : e.level ∈ VALID_LEVELS := by simpa using hlev
    rw [VALID_LEVELS] at hm
    simp only [List.mem_cons, List.not_mem_nil, or_false] at hm
    rcases hm with h | h | h | h | h | h | h <;> rw [h] <;> decide
  unfold fromDict toDict
  dsimp only
  rw [parseIso_isoFormat]
  unfold mkLogEvent
  dsimp only
  simp only [Option.getD_some]
  rw [hupper]
  rw [if_neg (by rw [hlev]; exact fun h => Bool.noConfusion h)]
  rw [if_neg hsrc, if_neg hmsg]

/-- Witness for C8: the demo INFO event round-trips. -/
theorem c8_roundtrip_witness :
    evB.Valid ∧ fromDict (toDict evB) = Except.ok evB :=
  ⟨⟨by decide, by decide, by decide⟩,
    c8_roundtrip evB ⟨by decide, by decide, by decide⟩⟩

end LogLens
